import Mathlib

/-!
Verification of the VOICE text-to-speech front-end.

Strings are modelled as `List Char`.  The chunking algorithm
`splitTextIntoChunks` (src/App.tsx, lines 13-47) is embedded with a fuel
parameter (the fuel `text.length + 1` is shown sufficient for every
`maxSize ≥ 1`, which settles the termination claim).  JavaScript's
`String.prototype.trim`, `lastIndexOf` and `substring` are embedded as
`jsTrim`, `lastIndexOf`, `take`/`drop`.
-/

namespace Voice

/-- The character class removed by JavaScript `String.prototype.trim`
(WhiteSpace plus LineTerminator). -/
def isWS (c : Char) : Bool :=
  c.toNat == 0x09 || c.toNat == 0x0A || c.toNat == 0x0B || c.toNat == 0x0C ||
  c.toNat == 0x0D || c.toNat == 0x20 || c.toNat == 0xA0 || c.toNat == 0x1680 ||
  (0x2000 ≤ c.toNat && c.toNat ≤ 0x200A) || c.toNat == 0x2028 ||
  c.toNat == 0x2029 || c.toNat == 0x202F || c.toNat == 0x205F ||
  c.toNat == 0x3000 || c.toNat == 0xFEFF

/-- JavaScript `s.trim()`: drop leading and trailing whitespace. -/
def jsTrim (s : List Char) : List Char :=
  ((s.dropWhile isWS).reverse.dropWhile isWS).reverse

/-- Helper for `lastIndexOf`: the largest index `j ≤ i` at which `needle`
occurs in `s`, as an `Int` (`-1` when there is none), scanning downward. -/
def lastIndexOfFrom (s needle : List Char) : Nat → Int
  | 0 => if needle.isPrefixOf s then 0 else -1
  | i + 1 =>
      if needle.isPrefixOf (s.drop (i + 1)) then Int.ofNat (i + 1)
      else lastIndexOfFrom s needle i

/-- JavaScript `s.lastIndexOf(needle)`: index of the last occurrence of
`needle` in `s`, `-1` when absent. -/
def lastIndexOf (s needle : List Char) : Int :=
  lastIndexOfFrom s needle s.length

/-- The local `lookbackRange = Math.min(maxSize, 500)` of
`splitTextIntoChunks` (src/App.tsx line 24). -/
def lookbackRangeOf (maxSize : Nat) : Nat := min maxSize 500

/-- The local `searchArea = currentText.substring(maxSize - lookbackRange,
maxSize)` (src/App.tsx line 25). -/
def searchAreaOf (maxSize : Nat) (currentText : List Char) : List Char :=
  (currentText.drop (maxSize - lookbackRangeOf maxSize)).take (lookbackRangeOf maxSize)

/-- The local `lastPunctuation` (src/App.tsx lines 27-32): `Math.max` over
the last occurrences of `". "`, `"? "`, `"! "` and `"\n"`. -/
def lastPunctuationOf (searchArea : List Char) : Int :=
  max (max (lastIndexOf searchArea ['.', ' ']) (lastIndexOf searchArea ['?', ' ']))
      (max (lastIndexOf searchArea ['!', ' ']) (lastIndexOf searchArea ['\n']))

/-- The split-point computation of `splitTextIntoChunks` for one loop
iteration (src/App.tsx lines 23-41): prefer sentence punctuation or a
newline within the lookback window, then a space, else the hard split at
exactly `maxSize`. -/
def computeSplitIndex (maxSize : Nat) (currentText : List Char) : Nat :=
  if lastPunctuationOf (searchAreaOf maxSize currentText) ≠ -1 then
    maxSize - lookbackRangeOf maxSize +
      ((lastPunctuationOf (searchAreaOf maxSize currentText)).toNat + 1)
  else if lastIndexOf (searchAreaOf maxSize currentText) [' '] ≠ -1 then
    maxSize - lookbackRangeOf maxSize +
      ((lastIndexOf (searchAreaOf maxSize currentText) [' ']).toNat + 1)
  else
    maxSize

/-- The `while` loop of `splitTextIntoChunks` (src/App.tsx lines 17-45),
with explicit fuel.  Each iteration either emits the final remainder
(when it fits in `maxSize`) or splits off `currentText.substring(0,
splitIndex).trim()` and continues with `currentText.substring(splitIndex)
.trim()`. -/
def splitGo (maxSize : Nat) : Nat → List Char → List (List Char)
  | 0, _ => []
  | fuel + 1, currentText =>
      if currentText.length = 0 then []
      else if currentText.length ≤ maxSize then [currentText]
      else
        let splitIndex := computeSplitIndex maxSize currentText
        jsTrim (currentText.take splitIndex) ::
          splitGo maxSize fuel (jsTrim (currentText.drop splitIndex))

/-- `splitTextIntoChunks` (src/App.tsx lines 13-47).  The fuel
`text.length + 1` is sufficient for every `maxSize ≥ 1`
(see the termination theorem). -/
def splitTextIntoChunks (text : List Char) (maxSize : Nat) : List (List Char) :=
  splitGo maxSize (text.length + 1) text

/-! ### Basic facts about the JavaScript string primitives -/

/-- Any list splits as its `dropWhile` remainder preceded by a block of
elements satisfying the predicate. -/
theorem dropWhile_decomp (p : Char → Bool) :
    ∀ s : List Char, ∃ a, s = a ++ s.dropWhile p ∧ ∀ c ∈ a, p c = true := by
  intro s
  induction s with
  | nil => exact ⟨[], rfl, by simp⟩
  | cons x xs ih =>
    by_cases hx : p x
    · obtain ⟨a, ha, hall⟩ := ih
      refine ⟨x :: a, ?_, ?_⟩
      · simpa [List.dropWhile_cons, hx] using congrArg (x :: ·) ha
      · intro c hc
        rcases List.mem_cons.mp hc with rfl | hc
        · exact hx
        · exact hall c hc
    · exact ⟨[], by simp [List.dropWhile_cons, hx], by simp⟩

/-- JavaScript `trim` only removes whitespace, and only at the two ends:
`s = a ++ s.trim() ++ b` with `a`, `b` whitespace. -/
theorem jsTrim_decomp (s : List Char) :
    ∃ a b, s = a ++ (jsTrim s ++ b) ∧ (∀ c ∈ a, isWS c = true) ∧
      (∀ c ∈ b, isWS c = true) := by
  obtain ⟨a, ha, haWS⟩ := dropWhile_decomp isWS s
  obtain ⟨b, hb, hbWS⟩ := dropWhile_decomp isWS (s.dropWhile isWS).reverse
  refine ⟨a, b.reverse, ?_, haWS, ?_⟩
  · have hsplit : s.dropWhile isWS = jsTrim s ++ b.reverse := by
      have := congrArg List.reverse hb
      simpa [jsTrim, List.reverse_append] using this
    calc s = a ++ s.dropWhile isWS := ha
      _ = a ++ (jsTrim s ++ b.reverse) := by rw [hsplit]
  · intro c hc
    exact hbWS c (List.mem_reverse.mp hc)

/-- Trimming never lengthens a string. -/
theorem jsTrim_length_le (s : List Char) : (jsTrim s).length ≤ s.length := by
  obtain ⟨a, b, hs, -, -⟩ := jsTrim_decomp s
  have := congrArg List.length hs
  simp [List.length_append] at this
  omega

theorem isPrefixOf_length_le :
    ∀ a b : List Char, a.isPrefixOf b = true → a.length ≤ b.length
  | [], _, _ => by simp
  | _ :: _, [], h => by simp [List.isPrefixOf] at h
  | x :: xs, y :: ys, h => by
      simp only [List.isPrefixOf, Bool.and_eq_true] at h
      have := isPrefixOf_length_le xs ys h.2
      simp [List.length_cons]
      omega

theorem isPrefixOf_append_self : ∀ a b : List Char, a.isPrefixOf (a ++ b) = true
  | [], _ => by simp [List.isPrefixOf]
  | x :: xs, b => by
      simp only [List.cons_append, List.isPrefixOf, Bool.and_eq_true]
      exact ⟨by simp, isPrefixOf_append_self xs b⟩

/-- `lastIndexOfFrom` returns `-1` or a genuine occurrence index. -/
theorem lastIndexOfFrom_spec (s nd : List Char) :
    ∀ i, lastIndexOfFrom s nd i = -1 ∨
      ∃ j : Nat, lastIndexOfFrom s nd i = Int.ofNat j ∧ j ≤ i ∧
        nd.isPrefixOf (s.drop j) = true := by
  intro i
  induction i with
  | zero =>
      by_cases h : nd.isPrefixOf s = true
      · exact Or.inr ⟨0, by simp [lastIndexOfFrom, h], Nat.le_refl 0, by simpa using h⟩
      · exact Or.inl (by simp [lastIndexOfFrom, h])
  | succ k ih =>
      by_cases h : nd.isPrefixOf (s.drop (k + 1)) = true
      · exact Or.inr ⟨k + 1, by simp [lastIndexOfFrom, h], Nat.le_refl _, h⟩
      · have hstep : lastIndexOfFrom s nd (k + 1) = lastIndexOfFrom s nd k := by
          simp [lastIndexOfFrom, h]
        rcases ih with h1 | ⟨j, hj, hji, hp⟩
        · exact Or.inl (by rw [hstep, h1])
        · exact Or.inr ⟨j, by rw [hstep, hj], Nat.le_succ_of_le hji, hp⟩

/-- A found occurrence of a non-empty needle fits inside the haystack. -/
theorem lastIndexOf_toNat_bound (s nd : List Char) (hnd : nd ≠ [])
    (h : lastIndexOf s nd ≠ -1) :
    (lastIndexOf s nd).toNat + nd.length ≤ s.length := by
  rcases lastIndexOfFrom_spec s nd s.length with h1 | ⟨j, hj, hji, hp⟩
  · exact absurd h1 h
  · have hlen : nd.length ≤ (s.drop j).length := isPrefixOf_length_le _ _ hp
    have hdrop : (s.drop j).length = s.length - j := List.length_drop _ _
    have hpos : 1 ≤ nd.length := List.length_pos.mpr hnd
    unfold lastIndexOf
    rw [hj]
    rw [hdrop] at hlen
    simp only [Int.ofNat_eq_natCast, Int.toNat_natCast]
    omega

/-- The value of a 4-way `Math.max` is one of its arguments. -/
theorem max4_cases (a b c d : Int) :
    max (max a b) (max c d) = a ∨ max (max a b) (max c d) = b ∨
    max (max a b) (max c d) = c ∨ max (max a b) (max c d) = d := by
  rcases max_choice (max a b) (max c d) with h | h
  · rcases max_choice a b with h2 | h2
    · exact Or.inl (by rw [h, h2])
    · exact Or.inr (Or.inl (by rw [h, h2]))
  · rcases max_choice c d with h2 | h2
    · exact Or.inr (Or.inr (Or.inl (by rw [h, h2])))
    · exact Or.inr (Or.inr (Or.inr (by rw [h, h2])))

/-- Split-index bounds (the heart of claims C1 and C10): for `maxSize ≥ 1`
every computed split index lies in `[1, maxSize]`, in all three branches
(punctuation/newline, space, hard split). -/
theorem computeSplitIndex_bounds (maxSize : Nat) (hM : 1 ≤ maxSize)
    (T : List Char) :
    1 ≤ computeSplitIndex maxSize T ∧ computeSplitIndex maxSize T ≤ maxSize := by
  have hLM : lookbackRangeOf maxSize ≤ maxSize := min_le_left _ _
  have hAL : (searchAreaOf maxSize T).length ≤ lookbackRangeOf maxSize := by
    unfold searchAreaOf
    simp
  have key : ∀ nd : List Char, nd ≠ [] →
      lastIndexOf (searchAreaOf maxSize T) nd ≠ -1 →
      (lastIndexOf (searchAreaOf maxSize T) nd).toNat + 1 ≤ lookbackRangeOf maxSize := by
    intro nd hnd h
    have := lastIndexOf_toNat_bound (searchAreaOf maxSize T) nd hnd h
    have hpos : 1 ≤ nd.length := List.length_pos.mpr hnd
    omega
  unfold computeSplitIndex
  split
  · next hcond =>
      unfold lastPunctuationOf at hcond ⊢
      rcases max4_cases (lastIndexOf (searchAreaOf maxSize T) ['.', ' '])
          (lastIndexOf (searchAreaOf maxSize T) ['?', ' '])
          (lastIndexOf (searchAreaOf maxSize T) ['!', ' '])
          (lastIndexOf (searchAreaOf maxSize T) ['\n']) with h | h | h | h <;>
        rw [h] at hcond ⊢ <;>
        [have := key ['.', ' '] (by simp) hcond;
         have := key ['?', ' '] (by simp) hcond;
         have := key ['!', ' '] (by simp) hcond;
         have := key ['\n'] (by simp) hcond] <;>
        omega
  · split
    · next hcond =>
        have := key [' '] (by simp) hcond
        omega
    · omega

/-- Unfolding equation for one iteration of the chunking loop. -/
theorem splitGo_succ (maxSize fuel : Nat) (T : List Char) :
    splitGo maxSize (fuel + 1) T =
      if T.length = 0 then []
      else if T.length ≤ maxSize then [T]
      else jsTrim (T.take (computeSplitIndex maxSize T)) ::
        splitGo maxSize fuel (jsTrim (T.drop (computeSplitIndex maxSize T))) := rfl

/-- One loop step strictly shrinks the remaining text (for `maxSize ≥ 1`). -/
theorem remaining_shrinks (maxSize : Nat) (hM : 1 ≤ maxSize) (T : List Char)
    (hT : maxSize < T.length) :
    (jsTrim (T.drop (computeSplitIndex maxSize T))).length + 1 ≤ T.length := by
  obtain ⟨h1, h2⟩ := computeSplitIndex_bounds maxSize hM T
  have h3 := jsTrim_length_le (T.drop (computeSplitIndex maxSize T))
  have h4 : (T.drop (computeSplitIndex maxSize T)).length =
      T.length - computeSplitIndex maxSize T := List.length_drop _ _
  omega

/-- Every chunk emitted by the loop has length at most `maxSize`. -/
theorem splitGo_length_le (maxSize : Nat) (hM : 1 ≤ maxSize) :
    ∀ fuel T, T.length < fuel →
      ∀ c ∈ splitGo maxSize fuel T, c.length ≤ maxSize := by
  intro fuel
  induction fuel with
  | zero => intro T h; omega
  | succ n ih =>
      intro T hT c hc
      rw [splitGo_succ] at hc
      by_cases h0 : T.length = 0
      · simp [h0] at hc
      · by_cases hle : T.length ≤ maxSize
        · rw [if_neg h0, if_pos hle] at hc
          have : c = T := by simpa using hc
          rw [this]
          exact hle
        · have hgt : maxSize < T.length := lt_of_not_le hle
          rw [if_neg h0, if_neg hle] at hc
          rcases List.mem_cons.mp hc with rfl | hc
          · have ht1 : (T.take (computeSplitIndex maxSize T)).length ≤
                computeSplitIndex maxSize T := by
              simp [List.length_take]
            have ht2 := jsTrim_length_le (T.take (computeSplitIndex maxSize T))
            have ht3 := (computeSplitIndex_bounds maxSize hM T).2
            omega
          · exact ih (jsTrim (T.drop (computeSplitIndex maxSize T)))
              (by have := remaining_shrinks maxSize hM T hgt; omega) c hc

/-- `ChunksOf T cs` states that `T` decomposes as
`ws₀ ++ c₁ ++ ws₁ ++ ... ++ cₙ ++ wsₙ` where `cs = [c₁, ..., cₙ]` and every
`wsᵢ` is pure whitespace: the chunks are, in order, contiguous segments of
`T`, with whitespace removed only at the segment boundaries (so the trimmed
concatenation of the chunks is `T` minus only boundary whitespace). -/
inductive ChunksOf : List Char → List (List Char) → Prop where
  | nil : ∀ ws : List Char, (∀ c ∈ ws, isWS c = true) → ChunksOf ws []
  | cons : ∀ (ws c rest : List Char) (cs : List (List Char)),
      (∀ x ∈ ws, isWS x = true) → ChunksOf rest cs →
      ChunksOf (ws ++ (c ++ rest)) (c :: cs)

/-- A `ChunksOf` decomposition absorbs extra leading whitespace. -/
theorem ChunksOf.prependWS {t : List Char} {cs : List (List Char)}
    (h : ChunksOf t cs) {ws : List Char} (hws : ∀ c ∈ ws, isWS c = true) :
    ChunksOf (ws ++ t) cs := by
  cases h with
  | nil _ h0 =>
      refine ChunksOf.nil (ws ++ t) ?_
      intro c hc
      rcases List.mem_append.mp hc with h1 | h1
      · exact hws c h1
      · exact h0 c h1
  | cons ws0 c rest cs0 h0 hrest =>
      have heq : ws ++ (ws0 ++ (c ++ rest)) = (ws ++ ws0) ++ (c ++ rest) := by
        simp [List.append_assoc]
      rw [heq]
      refine ChunksOf.cons _ _ _ _ ?_ hrest
      intro x hx
      rcases List.mem_append.mp hx with h1 | h1
      · exact hws x h1
      · exact h0 x h1

/-- A `ChunksOf` decomposition absorbs extra trailing whitespace. -/
theorem ChunksOf.appendWS {t : List Char} {cs : List (List Char)}
    (h : ChunksOf t cs) {ws : List Char} (hws : ∀ c ∈ ws, isWS c = true) :
    ChunksOf (t ++ ws) cs := by
  induction h with
  | nil ws0 h0 =>
      refine ChunksOf.nil (ws0 ++ ws) ?_
      intro c hc
      rcases List.mem_append.mp hc with h1 | h1
      · exact h0 c h1
      · exact hws c h1
  | cons ws0 c rest cs0 h0 hrest ih =>
      have heq : (ws0 ++ (c ++ rest)) ++ ws = ws0 ++ (c ++ (rest ++ ws)) := by
        simp [List.append_assoc]
      rw [heq]
      exact ChunksOf.cons _ _ _ _ h0 ih

/-- The chunking loop yields a boundary-whitespace decomposition of its
input. -/
theorem splitGo_chunksOf (maxSize : Nat) (hM : 1 ≤ maxSize) :
    ∀ fuel T, T.length < fuel → ChunksOf T (splitGo maxSize fuel T) := by
  intro fuel
  induction fuel with
  | zero => intro T h; omega
  | succ n ih =>
      intro T hT
      rw [splitGo_succ]
      by_cases h0 : T.length = 0
      · have hnil : T = [] := List.length_eq_zero.mp h0
        rw [if_pos h0, hnil]
        exact ChunksOf.nil [] (by simp)
      · by_cases hle : T.length ≤ maxSize
        · rw [if_neg h0, if_pos hle]
          have := ChunksOf.cons [] T [] [] (by simp) (ChunksOf.nil [] (by simp))
          simpa using this
        · have hgt : maxSize < T.length := lt_of_not_le hle
          rw [if_neg h0, if_neg hle]
          have hlen : (jsTrim (T.drop (computeSplitIndex maxSize T))).length < n := by
            have := remaining_shrinks maxSize hM T hgt
            omega
          have hrec := ih (jsTrim (T.drop (computeSplitIndex maxSize T))) hlen
          obtain ⟨a, b, hTake, haWS, hbWS⟩ :=
            jsTrim_decomp (T.take (computeSplitIndex maxSize T))
          obtain ⟨c2, d2, hDrop, hcWS, hdWS⟩ :=
            jsTrim_decomp (T.drop (computeSplitIndex maxSize T))
          have h3 : ChunksOf (T.drop (computeSplitIndex maxSize T))
              (splitGo maxSize n (jsTrim (T.drop (computeSplitIndex maxSize T)))) := by
            have h3a := (hrec.appendWS hdWS).prependWS hcWS
            rw [← hDrop] at h3a
            exact h3a
          have h5 := ChunksOf.cons a (jsTrim (T.take (computeSplitIndex maxSize T)))
            (b ++ T.drop (computeSplitIndex maxSize T)) _ haWS (h3.prependWS hbWS)
          have hT2 : T = a ++ (jsTrim (T.take (computeSplitIndex maxSize T)) ++
              (b ++ T.drop (computeSplitIndex maxSize T))) := by
            conv_lhs => rw [← List.take_append_drop (computeSplitIndex maxSize T) T, hTake]
            simp [List.append_assoc]
          rw [← hT2] at h5
          exact h5

/-- Fuel irrelevance: once the fuel exceeds the input length, the loop
result no longer depends on it (so the JavaScript `while` loop terminates
within `|T|` iterations for `maxSize ≥ 1`). -/
theorem splitGo_fuel_irrel (maxSize : Nat) (hM : 1 ≤ maxSize) :
    ∀ f1 f2 T, T.length < f1 → T.length < f2 →
      splitGo maxSize f1 T = splitGo maxSize f2 T := by
  intro f1
  induction f1 with
  | zero => intro f2 T h1 h2; omega
  | succ n ih =>
      intro f2 T h1 h2
      cases f2 with
      | zero => omega
      | succ m =>
          rw [splitGo_succ, splitGo_succ]
          by_cases h0 : T.length = 0
          · simp [h0]
          · by_cases hle : T.length ≤ maxSize
            · simp [h0, hle]
            · have hgt : maxSize < T.length := lt_of_not_le hle
              have hlen := remaining_shrinks maxSize hM T hgt
              rw [if_neg h0, if_neg hle, if_neg h0, if_neg hle]
              congr 1
              exact ih m _ (by omega) (by omega)

/-! ### Part labels and the regeneration strip (src/App.tsx lines 217-218
and 274) -/

/-- The character class of the regex `\d`. -/
def isDigit (c : Char) : Bool := 0x30 ≤ c.toNat && c.toNat ≤ 0x39

/-- Decimal digit characters, as produced by JavaScript number-to-string
conversion. -/
def digitChar (d : Nat) : Char :=
  match d with
  | 0 => '0' | 1 => '1' | 2 => '2' | 3 => '3' | 4 => '4'
  | 5 => '5' | 6 => '6' | 7 => '7' | 8 => '8' | _ => '9'

/-- Decimal rendering of a natural number (JavaScript template-literal
interpolation of a non-negative integer). -/
def natDigits (n : Nat) : List Char :=
  if _h : n < 10 then [digitChar n]
  else natDigits (n / 10) ++ [digitChar (n % 10)]
decreasing_by exact Nat.div_lt_self (by omega) (by omega)

/-- The label `` `[Phần ${i}/${n}] ` `` prefixed to each stored chunk of a
multi-chunk session (src/App.tsx line 217, with `i` already the 1-based
part index). -/
def partLabel (i n : Nat) : List Char :=
  "[Phần ".toList ++ natDigits i ++ ['/'] ++ natDigits n ++ "] ".toList

/-- The item text stored for chunk `i` (0-based) of a session with
`total` chunks (src/App.tsx lines 217-218). -/
def itemTextFor (total i : Nat) (chunk : List Char) : List Char :=
  (if 1 < total then partLabel (i + 1) total else []) ++ chunk

/-- Matching `\d+` at the front of a string: `some rest` on at least one
digit, consuming the maximal digit run. -/
def dropDigits (s : List Char) : Option (List Char) :=
  match s with
  | c :: rest => if isDigit c then some (rest.dropWhile isDigit) else none
  | [] => none

/-- Anchored match of the regex `^\[Phần \d+\/\d+\] ` (src/App.tsx line
274); `some rest` returns the text after the matched label. -/
def matchPartLabel (s : List Char) : Option (List Char) :=
  if ("[Phần ".toList).isPrefixOf s then
    match dropDigits (s.drop ("[Phần ".toList).length) with
    | some r1 =>
        match r1 with
        | '/' :: r2 =>
            match dropDigits r2 with
            | some r3 =>
                if ("] ".toList).isPrefixOf r3 then some (r3.drop 2) else none
            | none => none
        | _ => none
    | none => none
  else none

/-- `item.text.replace(/^\[Phần \d+\/\d+\] /, '')` (src/App.tsx line 274):
remove the first anchored label match, if any. -/
def stripPartLabel (s : List Char) : List Char :=
  match matchPartLabel s with
  | some rest => rest
  | none => s

theorem isDigit_digitChar : ∀ d : Nat, isDigit (digitChar d) = true := by
  intro d
  match d with
  | 0 => decide
  | 1 => decide
  | 2 => decide
  | 3 => decide
  | 4 => decide
  | 5 => decide
  | 6 => decide
  | 7 => decide
  | 8 => decide
  | n + 9 =>
      show isDigit '9' = true
      decide

theorem natDigits_spec : ∀ n : Nat,
    natDigits n ≠ [] ∧ ∀ c ∈ natDigits n, isDigit c = true := by
  intro n
  induction n using Nat.strong_induction_on with
  | _ n ih =>
    rw [natDigits]
    by_cases h : n < 10
    · rw [dif_pos h]
      exact ⟨by simp, by intro c hc; rw [List.mem_singleton.mp hc]; exact isDigit_digitChar n⟩
    · rw [dif_neg h]
      have hlt : n / 10 < n := Nat.div_lt_self (by omega) (by omega)
      obtain ⟨-, hall⟩ := ih (n / 10) hlt
      refine ⟨by simp, ?_⟩
      intro c hc
      rcases List.mem_append.mp hc with h1 | h1
      · exact hall c h1
      · rw [List.mem_singleton.mp h1]
        exact isDigit_digitChar (n % 10)

/-- `dropWhile isDigit` skips a block of digits. -/
theorem dropWhile_isDigit_append (l r : List Char)
    (h : ∀ c ∈ l, isDigit c = true) :
    (l ++ r).dropWhile isDigit = r.dropWhile isDigit := by
  induction l with
  | nil => rfl
  | cons x xs ih =>
      have hx : isDigit x = true := h x (List.mem_cons_self x xs)
      rw [List.cons_append, List.dropWhile_cons, if_pos hx]
      exact ih fun c hc => h c (List.mem_cons_of_mem x hc)

theorem dropDigits_cons (x : Char) (rest : List Char) :
    dropDigits (x :: rest) =
      if isDigit x then some (rest.dropWhile isDigit) else none := rfl

/-- The anchored regex matches exactly the label on a labelled text, for
any part numbers and any tail. -/
theorem matchPartLabel_label (i n : Nat) (c : List Char) :
    matchPartLabel (partLabel i n ++ c) = some c := by
  obtain ⟨hne1, hall1⟩ := natDigits_spec i
  obtain ⟨hne2, hall2⟩ := natDigits_spec n
  obtain ⟨d1, t1, hd1⟩ : ∃ d t, natDigits i = d :: t :=
    List.exists_cons_of_ne_nil hne1
  obtain ⟨d2, t2, hd2⟩ : ∃ d t, natDigits n = d :: t :=
    List.exists_cons_of_ne_nil hne2
  have hrest : partLabel i n ++ c = "[Phần ".toList ++
      (natDigits i ++ ('/' :: (natDigits n ++ (']' :: ' ' :: c)))) := by
    unfold partLabel
    simp [List.append_assoc]
  have hdig1 : dropDigits (natDigits i ++ ('/' :: (natDigits n ++ (']' :: ' ' :: c)))) =
      some ('/' :: (natDigits n ++ (']' :: ' ' :: c))) := by
    have hx : isDigit d1 = true := hall1 d1 (by rw [hd1]; exact List.mem_cons_self _ _)
    have ht1 : ∀ x ∈ t1, isDigit x = true := by
      intro x hx2
      exact hall1 x (by rw [hd1]; exact List.mem_cons_of_mem _ hx2)
    rw [hd1, List.cons_append, dropDigits_cons, if_pos hx,
      dropWhile_isDigit_append t1 _ ht1, List.dropWhile_cons,
      if_neg (by decide : ¬isDigit '/' = true)]
  have hdig2 : dropDigits (natDigits n ++ (']' :: ' ' :: c)) =
      some (']' :: ' ' :: c) := by
    have hx : isDigit d2 = true := hall2 d2 (by rw [hd2]; exact List.mem_cons_self _ _)
    have ht2 : ∀ x ∈ t2, isDigit x = true := by
      intro x hx2
      exact hall2 x (by rw [hd2]; exact List.mem_cons_of_mem _ hx2)
    rw [hd2, List.cons_append, dropDigits_cons, if_pos hx,
      dropWhile_isDigit_append t2 _ ht2, List.dropWhile_cons,
      if_neg (by decide : ¬isDigit ']' = true)]
  have hpre0 : ("[Phần ".toList).isPrefixOf ("[Phần ".toList ++
      (natDigits i ++ ('/' :: (natDigits n ++ (']' :: ' ' :: c))))) = true :=
    isPrefixOf_append_self _ _
  have hpre2 : ("] ".toList).isPrefixOf (']' :: ' ' :: c) = true :=
    isPrefixOf_append_self "] ".toList c
  rw [hrest]
  simp [matchPartLabel, hpre0, List.drop_left, hdig1, hdig2, hpre2]

/-- Stripping the label from a labelled text recovers the chunk exactly. -/
theorem stripPartLabel_label (i n : Nat) (c : List Char) :
    stripPartLabel (partLabel i n ++ c) = c := by
  unfold stripPartLabel
  rw [matchPartLabel_label]

/-! ### Data model and the session orchestrator (src/App.tsx, coarse model)

One generated artifact.  `audioUrl` (a transient object URL) carries no
observable content relevant to any claim, so an item is its persisted
record: id, text, voice, timestamp, duration (src/types.ts `AudioItem`
and the record passed to `Storage.saveItem`).  Ids are modelled as the
numbers an id source (`Math.random().toString(36).substring(2, 9)`,
src/App.tsx line 214) happens to produce; durations as naturals. -/

/-- The fixed voice set (src/types.ts `VoiceName`). -/
inductive VoiceName where
  | charon | kore | puck | fenrir | zephyr
deriving DecidableEq

/-- One generated artifact (src/types.ts `AudioItem` / the stored record). -/
structure StoredItem where
  id : Nat
  text : List Char
  voice : VoiceName
  timestamp : Nat
  duration : Nat
deriving DecidableEq

/-- Modelled from the spec: `Storage.saveItem` of src/utils/storage (not
under src/).  Section 4.5 of the spec: `save(item)` upserts by id — update
in place if the id exists, insert otherwise. -/
def saveItem (store : List StoredItem) (it : StoredItem) : List StoredItem :=
  if store.any (fun s => s.id == it.id) then
    store.map (fun s => if s.id == it.id then it else s)
  else
    store ++ [it]

/-- Modelled from the spec: `Storage.deleteItem` of src/utils/storage (not
under src/).  Section 4.5 of the spec: `delete(id)` removes the item if
present, no-op otherwise. -/
def deleteItem (store : List StoredItem) (id : Nat) : List StoredItem :=
  store.filter (fun s => s.id != id)

/-- Insertion step for the timestamp sort used before merging. -/
def insertByTs (x : StoredItem) : List StoredItem → List StoredItem
  | [] => [x]
  | y :: ys => if x.timestamp < y.timestamp then x :: y :: ys else y :: insertByTs x ys

/-- `[...items].sort((a, b) => a.timestamp - b.timestamp)` (src/App.tsx
line 157): the merge reads its inputs in timestamp order. -/
def sortByTimestamp : List StoredItem → List StoredItem
  | [] => []
  | x :: xs => insertByTs x (sortByTimestamp xs)

/-- Modelled from the spec: `performMerge` concatenates the items' audio in
timestamp order (src/App.tsx lines 155-171; the audio helpers of
src/utils/audioUtils are not under src/).  The merged artifact is
identified by the ids it concatenates, in merge order. -/
def mergeArtifact (items : List StoredItem) : List Nat :=
  (sortByTimestamp items).map (fun it => it.id)

/-- `MAX_CHARS` (src/App.tsx line 10). -/
def MAX_CHARS : Nat := 20000

/-- `CHUNK_SIZE` (src/App.tsx line 11). -/
def CHUNK_SIZE : Nat := 3000

/-- Validation error for empty input (src/App.tsx line 175). -/
def errEmptyMsg : String := "Vui lòng nhập văn bản."

/-- Validation error for over-length input (src/App.tsx line 179). -/
def errLimitMsg : String := "Vượt quá giới hạn ký tự (20,000)."

/-- Fallback service error (src/App.tsx line 258). -/
def errServiceMsg : String := "Đã có lỗi xảy ra khi tạo giọng nói."

/-- Regeneration error prefix (src/App.tsx line 320). -/
def errRegenMsg : String := "Lỗi khi tạo lại phần này: "

/-- Outcome of one `generateTTS` call, as seen by the orchestrator: the
decoded audio's duration, or a thrown error. -/
inductive TTSOutcome where
  | ok (duration : Nat)
  | fail
deriving DecidableEq

/-- The environment of one generation session: per-chunk TTS outcomes, the
id source, `Date.now()` per iteration, and the value of the shared
`isAbortedRef` at its k-th read during the session. -/
structure GenEnv where
  tts : Nat → TTSOutcome
  newId : Nat → Nat
  now : Nat → Nat
  abort : Nat → Bool

/-- The mutable context threaded through the chunk loop of
`handleGenerate` (src/App.tsx lines 193-244): the History Store, the
in-memory history, the session's own item list, the error slot, the
texts sent to `generateTTS`, the abort-read counter, and whether the
loop ended by a thrown error. -/
structure LoopState where
  store : List StoredItem
  history : List StoredItem
  sessionItems : List StoredItem
  error : Option String
  requests : List (List Char × VoiceName)
  k : Nat
  failed : Bool
deriving DecidableEq

/-- The chunk loop of `handleGenerate` (src/App.tsx lines 194-244).  Per
iteration `i` on chunk `c`: read the abort flag (`break` when set), call
`generateTTS` (a thrown error reaches the `catch`, which reads the abort
flag before setting the error), read the abort flag again (`break` when
set), then persist the labelled item, append it to `sessionItems` and
prepend it to the in-memory history. -/
def genLoop (env : GenEnv) (voice : VoiceName) (total : Nat) :
    List (List Char) → Nat → LoopState → LoopState
  | [], _, st => st
  | c :: rest, i, st =>
    if env.abort st.k then { st with k := st.k + 1 }
    else
      let st1 := { st with k := st.k + 1, requests := st.requests ++ [(c, voice)] }
      match env.tts i with
      | TTSOutcome.fail =>
          if env.abort st1.k then { st1 with k := st1.k + 1, failed := true }
          else { st1 with k := st1.k + 1, failed := true, error := some errServiceMsg }
      | TTSOutcome.ok dur =>
          if env.abort st1.k then { st1 with k := st1.k + 1 }
          else
            let st2 := { st1 with k := st1.k + 1 }
            let item : StoredItem :=
              ⟨env.newId i, itemTextFor total i c, voice, env.now i + i, dur⟩
            let st3 := { st2 with
              store := saveItem st2.store item,
              sessionItems := st2.sessionItems ++ [item],
              history := item :: st2.history }
            genLoop env voice total rest (i + 1) st3

/-- Orchestrator session state (the React state of `App` that outlives a
single handler: in-memory history, History Store contents, error banner,
merged artifact, tracked batch). -/
structure AppState where
  inputText : List Char
  selectedVoice : VoiceName
  history : List StoredItem
  store : List StoredItem
  error : Option String
  mergedIds : Option (List Nat)
  lastBatchIds : List Nat
  lastBatchCount : Nat
deriving DecidableEq

/-- `handleGenerate` (src/App.tsx lines 173-264), run to completion:
validation guards, then chunking, the chunk loop, and the final merge
check `if (!isAbortedRef.current && totalChunks > 1)`.  Returns the final
state together with the loop context (whose `requests` are the texts sent
to the Speech Generator Client and whose `sessionItems` are the items the
session persisted). -/
def runGenerate (s : AppState) (env : GenEnv) : AppState × LoopState :=
  if (jsTrim s.inputText).isEmpty then
    ({ s with error := some errEmptyMsg },
     ⟨s.store, s.history, [], s.error, [], 0, false⟩)
  else if MAX_CHARS < s.inputText.length then
    ({ s with error := some errLimitMsg },
     ⟨s.store, s.history, [], s.error, [], 0, false⟩)
  else
    let chunks := splitTextIntoChunks s.inputText CHUNK_SIZE
    let total := chunks.length
    let res := genLoop env s.selectedVoice total chunks 0
      ⟨s.store, s.history, [], none, [], 0, false⟩
    if res.failed then
      ({ s with store := res.store, history := res.history, error := res.error,
                mergedIds := none }, res)
    else if !env.abort res.k && decide (1 < total) then
      ({ s with store := res.store, history := res.history, error := res.error,
                mergedIds := some (mergeArtifact res.sessionItems),
                lastBatchIds := res.sessionItems.map (fun it => it.id),
                lastBatchCount := total }, res)
    else
      ({ s with store := res.store, history := res.history, error := res.error,
                mergedIds := none }, res)

/-- The state left by `handleGenerate`. -/
def handleGenerate (s : AppState) (env : GenEnv) : AppState :=
  (runGenerate s env).1

/-- `handleRegenerate` (src/App.tsx lines 266-323), run to completion on a
history card's item, with the given TTS outcome: strip the part label,
re-invoke TTS with the stripped text and the item's voice, re-persist
under the same id with the new duration, replace the item in the
in-memory history, and re-merge the tracked batch when the item belongs
to it.  Also returns the texts sent to the Speech Generator Client. -/
def handleRegenerate (s : AppState) (item : StoredItem) (outcome : TTSOutcome) :
    AppState × List (List Char × VoiceName) :=
  let cleanText := stripPartLabel item.text
  match outcome with
  | TTSOutcome.fail =>
      ({ s with error := some errRegenMsg }, [(cleanText, item.voice)])
  | TTSOutcome.ok dur =>
      let upd : StoredItem := { item with duration := dur }
      let store := saveItem s.store upd
      let history := s.history.map (fun h => if h.id == item.id then upd else h)
      let s1 := { s with error := none, store := store, history := history }
      if s.lastBatchIds.contains item.id then
        ({ s1 with mergedIds := some (mergeArtifact
              (history.filter (fun h => s.lastBatchIds.contains h.id))) },
         [(cleanText, item.voice)])
      else
        (s1, [(cleanText, item.voice)])

/-- `handleDelete` (src/App.tsx lines 325-340): delete from the History
Store, filter the in-memory history, and — when the id belongs to the
tracked batch — clear the merged artifact and remove the id from the
batch membership. -/
def handleDelete (s : AppState) (id : Nat) : AppState :=
  let store := deleteItem s.store id
  let history := s.history.filter (fun it => it.id != id)
  if s.lastBatchIds.contains id then
    { s with store := store, history := history, mergedIds := none,
             lastBatchIds := s.lastBatchIds.filter (fun bid => bid != id) }
  else
    { s with store := store, history := history }

/-- `handleClearHistory` (src/App.tsx lines 342-356), confirmed branch. -/
def handleClearHistory (s : AppState) : AppState :=
  { s with store := [], history := [], mergedIds := none, lastBatchIds := [] }

/-- A completed user-level operation of the orchestrator. -/
inductive Op where
  | genOp (input : List Char) (env : GenEnv)
  | regenOp (item : StoredItem) (outcome : TTSOutcome)
  | delOp (id : Nat)
  | clearOp

/-- Apply one operation (type the input and press generate / press a
card's regenerate or delete / clear the history). -/
def applyOp (s : AppState) : Op → AppState
  | Op.genOp input env => handleGenerate { s with inputText := input } env
  | Op.regenOp item outcome => (handleRegenerate s item outcome).1
  | Op.delOp id => handleDelete s id
  | Op.clearOp => handleClearHistory s

/-- Apply a sequence of operations: the reachable states of the coarse
model are the `applyOps` images of an initial state. -/
def applyOps (s : AppState) : List Op → AppState
  | [] => s
  | op :: ops => applyOps (applyOp s op) ops

/-- The id source never repeats an id and never returns an id already in
the given history. -/
def FreshEnv (env : GenEnv) (hist : List StoredItem) : Prop :=
  (∀ i j : Nat, i ≠ j → env.newId i ≠ env.newId j) ∧
  ∀ i, env.newId i ∉ hist.map (fun it => it.id)

/-- Freshness of the ids an operation generates, relative to the state it
runs in (only generation sessions create ids). -/
def FreshFor (s : AppState) : Op → Prop
  | Op.genOp _ env => FreshEnv env s.history
  | _ => True

/-- Freshness along a whole operation sequence. -/
def FreshTrace : AppState → List Op → Prop
  | _, [] => True
  | s, op :: ops => FreshFor s op ∧ FreshTrace (applyOp s op) ops

/-- Saving under a fresh id appends. -/
theorem saveItem_fresh (store : List StoredItem) (it : StoredItem)
    (h : it.id ∉ store.map (fun s => s.id)) : saveItem store it = store ++ [it] := by
  have hany : store.any (fun s => s.id == it.id) = false := by
    rw [List.any_eq_false]
    intro x hx
    simp only [beq_iff_eq]
    intro heq
    exact h (List.mem_map.mpr ⟨x, hx, heq⟩)
  unfold saveItem
  rw [hany]
  simp

/-- Loop invariant for the history (claim C9): with a non-repeating id
source whose ids avoid the current history, the loop keeps history ids
pairwise distinct. -/
theorem genLoop_history_nodup (env : GenEnv) (voice : VoiceName) (total : Nat) :
    ∀ (chunks : List (List Char)) (i : Nat) (st : LoopState),
      (st.history.map (fun it => it.id)).Nodup →
      (∀ j, i ≤ j → env.newId j ∉ st.history.map (fun it => it.id)) →
      (∀ a b : Nat, a ≠ b → env.newId a ≠ env.newId b) →
      ((genLoop env voice total chunks i st).history.map (fun it => it.id)).Nodup := by
  intro chunks
  induction chunks with
  | nil => intro i st hnd _ _; exact hnd
  | cons c rest ih =>
      intro i st hnd hfresh hpair
      by_cases hab : env.abort st.k = true
      · simp only [genLoop, hab, if_true]
        exact hnd
      · cases hts : env.tts i with
        | fail =>
            by_cases hab2 : env.abort (st.k + 1) = true
            · simp only [genLoop, hab, hts, hab2, Bool.false_eq_true, if_false, if_true]
              exact hnd
            · simp only [genLoop, hab, hts, hab2, Bool.false_eq_true, if_false]
              exact hnd
        | ok dur =>
            by_cases hab2 : env.abort (st.k + 1) = true
            · simp only [genLoop, hab, hts, hab2, Bool.false_eq_true, if_false, if_true]
              exact hnd
            · simp only [genLoop, hab, hts, hab2, Bool.false_eq_true, if_false]
              refine ih (i + 1) _ ?_ ?_ hpair
              · simp only [List.map_cons, List.nodup_cons]
                exact ⟨hfresh i (Nat.le_refl i), hnd⟩
              · intro j hj
                simp only [List.map_cons, List.mem_cons, not_or]
                refine ⟨hpair j i (by omega), hfresh j (by omega)⟩

/-- Loop invariant for persistence (claim C5): every item the session
persisted is in the final store and the final history, and — with fresh
ids — each persisted item grew the store by one entry. -/
theorem genLoop_persist_inv (env : GenEnv) (voice : VoiceName) (total : Nat) :
    ∀ (chunks : List (List Char)) (i : Nat) (st : LoopState),
      (∀ j, i ≤ j → env.newId j ∉ st.store.map (fun it => it.id)) →
      (∀ a b : Nat, a ≠ b → env.newId a ≠ env.newId b) →
      (∀ it ∈ st.sessionItems, it ∈ st.store ∧ it ∈ st.history) →
      (∀ it ∈ (genLoop env voice total chunks i st).sessionItems,
          it ∈ (genLoop env voice total chunks i st).store ∧
          it ∈ (genLoop env voice total chunks i st).history) ∧
      (genLoop env voice total chunks i st).store.length + st.sessionItems.length =
        st.store.length + (genLoop env voice total chunks i st).sessionItems.length := by
  intro chunks
  induction chunks with
  | nil => intro i st _ _ hmem; exact ⟨hmem, rfl⟩
  | cons c rest ih =>
      intro i st hfresh hpair hmem
      by_cases hab : env.abort st.k = true
      · simp only [genLoop, hab, if_true]
        exact ⟨hmem, trivial⟩
      · cases hts : env.tts i with
        | fail =>
            by_cases hab2 : env.abort (st.k + 1) = true
            · simp only [genLoop, hab, hts, hab2, Bool.false_eq_true, if_false, if_true]
              exact ⟨hmem, trivial⟩
            · simp only [genLoop, hab, hts, hab2, Bool.false_eq_true, if_false]
              exact ⟨hmem, trivial⟩
        | ok dur =>
            by_cases hab2 : env.abort (st.k + 1) = true
            · simp only [genLoop, hab, hts, hab2, Bool.false_eq_true, if_false, if_true]
              exact ⟨hmem, trivial⟩
            · simp only [genLoop, hab, hts, hab2, Bool.false_eq_true, if_false]
              have hsave : saveItem st.store
                  ⟨env.newId i, itemTextFor total i c, voice, env.now i + i, dur⟩ =
                  st.store ++ [⟨env.newId i, itemTextFor total i c, voice,
                    env.now i + i, dur⟩] :=
                saveItem_fresh _ _ (hfresh i (Nat.le_refl i))
              rw [hsave]
              have hfresh2 : ∀ j, i + 1 ≤ j → env.newId j ∉
                  ((st.store ++ [(⟨env.newId i, itemTextFor total i c, voice,
                      env.now i + i, dur⟩ : StoredItem)]).map (fun it => it.id)) := by
                intro j hj
                simp only [List.map_append, List.mem_append, List.map_cons,
                  List.map_nil, List.mem_singleton, not_or]
                exact ⟨hfresh j (by omega), hpair j i (by omega)⟩
              have hmem2 : ∀ it ∈ (st.sessionItems ++
                    [(⟨env.newId i, itemTextFor total i c, voice,
                      env.now i + i, dur⟩ : StoredItem)]),
                  it ∈ (st.store ++ [(⟨env.newId i, itemTextFor total i c, voice,
                      env.now i + i, dur⟩ : StoredItem)]) ∧
                  it ∈ ((⟨env.newId i, itemTextFor total i c, voice,
                      env.now i + i, dur⟩ : StoredItem) :: st.history) := by
                intro it hit
                rcases List.mem_append.mp hit with h1 | h1
                · obtain ⟨hs, hh⟩ := hmem it h1
                  exact ⟨List.mem_append.mpr (Or.inl hs), List.mem_cons_of_mem _ hh⟩
                · rw [List.mem_singleton.mp h1]
                  exact ⟨List.mem_append.mpr (Or.inr (List.mem_singleton.mpr rfl)),
                    List.mem_cons_self _ _⟩
              obtain ⟨hm, hl⟩ := ih (i + 1)
                ⟨st.store ++ [⟨env.newId i, itemTextFor total i c, voice,
                    env.now i + i, dur⟩],
                 ⟨env.newId i, itemTextFor total i c, voice, env.now i + i, dur⟩ ::
                    st.history,
                 st.sessionItems ++ [⟨env.newId i, itemTextFor total i c, voice,
                    env.now i + i, dur⟩],
                 st.error, st.requests ++ [(c, voice)], st.k + 1 + 1, st.failed⟩
                hfresh2 hpair hmem2
              refine ⟨hm, ?_⟩
              simp only [List.length_append, List.length_singleton] at hl
              omega

/-- The regeneration replacement rewrites one entry in place and keeps
every history id. -/
theorem regen_history_ids (hist : List StoredItem) (item upd : StoredItem)
    (hid : upd.id = item.id) :
    (hist.map (fun h : StoredItem => if h.id == item.id then upd else h)).map
      (fun it => it.id) = hist.map (fun it => it.id) := by
  induction hist with
  | nil => rfl
  | cons x xs ih =>
      simp only [List.map_cons, ih]
      by_cases hx : (x.id == item.id) = true
      · rw [if_pos hx]
        have hxe : x.id = item.id := beq_iff_eq.mp hx
        rw [hid, hxe]
      · rw [if_neg hx]

/-- The loop context of a validated `handleGenerate` run. -/
def sessionLoop (s : AppState) (env : GenEnv) : LoopState :=
  genLoop env s.selectedVoice (splitTextIntoChunks s.inputText CHUNK_SIZE).length
    (splitTextIntoChunks s.inputText CHUNK_SIZE) 0
    ⟨s.store, s.history, [], none, [], 0, false⟩

/-- On validated input, `runGenerate` runs exactly the session loop, and
its final store and history are the loop's. -/
theorem runGenerate_proj (s : AppState) (env : GenEnv)
    (he : ¬ (jsTrim s.inputText).isEmpty = true)
    (hlen : ¬ MAX_CHARS < s.inputText.length) :
    (runGenerate s env).2 = sessionLoop s env ∧
    (runGenerate s env).1.history = (sessionLoop s env).history ∧
    (runGenerate s env).1.store = (sessionLoop s env).store := by
  unfold sessionLoop
  simp only [runGenerate, if_neg he, if_neg hlen]
  by_cases hfail : (genLoop env s.selectedVoice
      (splitTextIntoChunks s.inputText CHUNK_SIZE).length
      (splitTextIntoChunks s.inputText CHUNK_SIZE) 0
      ⟨s.store, s.history, [], none, [], 0, false⟩).failed = true
  · rw [if_pos hfail]
    exact ⟨rfl, rfl, rfl⟩
  · rw [if_neg hfail]
    by_cases hm : (!env.abort (genLoop env s.selectedVoice
        (splitTextIntoChunks s.inputText CHUNK_SIZE).length
        (splitTextIntoChunks s.inputText CHUNK_SIZE) 0
        ⟨s.store, s.history, [], none, [], 0, false⟩).k &&
        decide (1 < (splitTextIntoChunks s.inputText CHUNK_SIZE).length)) = true
    · rw [if_pos hm]
      exact ⟨rfl, rfl, rfl⟩
    · rw [if_neg hm]
      exact ⟨rfl, rfl, rfl⟩

/-- On a cancelled (or failed) validated run — the abort flag is set when
the merge check reads it — no merge happens: the merged artifact is
cleared and the tracked batch is untouched. -/
theorem runGenerate_cancelled (s : AppState) (env : GenEnv)
    (he : ¬ (jsTrim s.inputText).isEmpty = true)
    (hlen : ¬ MAX_CHARS < s.inputText.length)
    (habort : env.abort (sessionLoop s env).k = true) :
    (runGenerate s env).1.mergedIds = none ∧
    (runGenerate s env).1.lastBatchIds = s.lastBatchIds ∧
    (runGenerate s env).1.lastBatchCount = s.lastBatchCount := by
  unfold sessionLoop at habort
  simp only [runGenerate, if_neg he, if_neg hlen]
  by_cases hfail : (genLoop env s.selectedVoice
      (splitTextIntoChunks s.inputText CHUNK_SIZE).length
      (splitTextIntoChunks s.inputText CHUNK_SIZE) 0
      ⟨s.store, s.history, [], none, [], 0, false⟩).failed = true
  · rw [if_pos hfail]
    exact ⟨rfl, rfl, rfl⟩
  · rw [if_neg hfail]
    have hm : ¬ ((!env.abort (genLoop env s.selectedVoice
        (splitTextIntoChunks s.inputText CHUNK_SIZE).length
        (splitTextIntoChunks s.inputText CHUNK_SIZE) 0
        ⟨s.store, s.history, [], none, [], 0, false⟩).k &&
        decide (1 < (splitTextIntoChunks s.inputText CHUNK_SIZE).length)) = true) := by
      rw [habort]
      simp
    rw [if_neg hm]
    exact ⟨rfl, rfl, rfl⟩

/-- `handleGenerate` keeps history ids pairwise distinct when the id
source is fresh. -/
theorem handleGenerate_nodup (s : AppState) (env : GenEnv)
    (hnd : (s.history.map (fun it => it.id)).Nodup)
    (hfe : FreshEnv env s.history) :
    ((handleGenerate s env).history.map (fun it => it.id)).Nodup := by
  obtain ⟨hpair, hunused⟩ := hfe
  unfold handleGenerate
  by_cases he : (jsTrim s.inputText).isEmpty = true
  · unfold runGenerate
    rw [if_pos he]
    exact hnd
  · by_cases hlen : MAX_CHARS < s.inputText.length
    · unfold runGenerate
      rw [if_neg he, if_pos hlen]
      exact hnd
    · obtain ⟨-, hhist, -⟩ := runGenerate_proj s env he hlen
      rw [hhist]
      exact genLoop_history_nodup env s.selectedVoice
        (splitTextIntoChunks s.inputText CHUNK_SIZE).length
        (splitTextIntoChunks s.inputText CHUNK_SIZE) 0
        ⟨s.store, s.history, [], none, [], 0, false⟩ hnd (fun j _ => hunused j) hpair

/-- `handleRegenerate` keeps history ids pairwise distinct (it rewrites
one entry in place, under the same id). -/
theorem handleRegenerate_nodup (s : AppState) (item : StoredItem)
    (outcome : TTSOutcome)
    (hnd : (s.history.map (fun it => it.id)).Nodup) :
    ((handleRegenerate s item outcome).1.history.map (fun it => it.id)).Nodup := by
  cases outcome with
  | fail => exact hnd
  | ok dur =>
      have hids := regen_history_ids s.history item { item with duration := dur } rfl
      by_cases hb : (s.lastBatchIds.contains item.id) = true
      · simp only [handleRegenerate, hb, if_true]
        rw [hids]
        exact hnd
      · simp only [handleRegenerate, hb, Bool.false_eq_true, if_false]
        rw [hids]
        exact hnd

/-- One coarse operation keeps history ids pairwise distinct, given
freshness of any ids it creates. -/
theorem applyOp_nodup (s : AppState) (op : Op)
    (hnd : (s.history.map (fun it => it.id)).Nodup) (hf : FreshFor s op) :
    ((applyOp s op).history.map (fun it => it.id)).Nodup := by
  cases op with
  | genOp input env => exact handleGenerate_nodup { s with inputText := input } env hnd hf
  | regenOp item outcome => exact handleRegenerate_nodup s item outcome hnd
  | delOp id =>
      have hsub : ((s.history.filter (fun it => it.id != id)).map (fun it => it.id)).Sublist
          (s.history.map (fun it => it.id)) :=
        List.Sublist.map _ (List.filter_sublist s.history)
      show ((handleDelete s id).history.map (fun it => it.id)).Nodup
      unfold handleDelete
      by_cases hb : (s.lastBatchIds.contains id) = true
      · rw [if_pos hb]
        exact List.Nodup.sublist hsub hnd
      · rw [if_neg hb]
        exact List.Nodup.sublist hsub hnd
  | clearOp => simp [applyOp, handleClearHistory]

/-! ### Fine-grained interleaving model (claim C7)

`handleGenerate` and `handleRegenerate` are `async`: a click handler runs
synchronously up to its first `await` and the browser may deliver further
clicks while a call is suspended.  The machine below models the React
state (`isLoading`, `isMerging`, `regeneratingId`, the `isAbortedRef`
ref, history, store, error, merged artifact, batch) together with at most
one pending generation-session task and at most one pending regeneration
task, each remembered at its suspension point.  Each event runs the exact
synchronous code segment of src/App.tsx between two suspension points.
The model tracks at most one pending task of each kind, which suffices
for the traces examined; every machine trace is a genuine execution of
the source. -/

/-- Suspension point of a pending `handleGenerate` task. -/
inductive GPhase where
  | ttsWait
  | delayWait
  | mergeWait
deriving DecidableEq

/-- A pending `handleGenerate` task: its chunk list, chunk count, current
index, captured voice, the session's items so far, and where it is
suspended. -/
structure GenTask where
  chunks : List (List Char)
  total : Nat
  i : Nat
  voice : VoiceName
  sessionItems : List StoredItem
  phase : GPhase
deriving DecidableEq

/-- Suspension point of a pending `handleRegenerate` task. -/
inductive RPhase where
  | ttsWait
  | mergeWait
  | timeoutWait
deriving DecidableEq

/-- A pending `handleRegenerate` task. -/
structure RegenTask where
  item : StoredItem
  phase : RPhase
deriving DecidableEq

/-- Fine-grained orchestrator state. -/
structure MState where
  inputText : List Char
  selectedVoice : VoiceName
  isLoading : Bool
  isMerging : Bool
  regeneratingId : Option Nat
  isAborted : Bool
  history : List StoredItem
  store : List StoredItem
  error : Option String
  mergedIds : Option (List Nat)
  lastBatchIds : List Nat
  lastBatchCount : Nat
  gen : Option GenTask
  regen : Option RegenTask
deriving DecidableEq

/-- Clicking the generate button (src/App.tsx lines 460-467: disabled
while `isLoading || isMerging || !!regeneratingId || !inputText.trim() ||
isOverLimit`), then `handleGenerate` lines 173-201 up to the first
`await generateTTS`. -/
def stepClickGenerate (s : MState) : MState :=
  if s.isLoading || s.isMerging || s.regeneratingId.isSome ||
      (jsTrim s.inputText).isEmpty || decide (MAX_CHARS < s.inputText.length) ||
      s.gen.isSome then s
  else
    let chunks := splitTextIntoChunks s.inputText CHUNK_SIZE
    { s with isLoading := true, isMerging := false, error := none,
             mergedIds := none, isAborted := false,
             gen := some ⟨chunks, chunks.length, 0, s.selectedVoice, [],
               GPhase.ttsWait⟩ }

/-- `handleStop` (src/App.tsx lines 145-153). -/
def stepClickStop (s : MState) : MState :=
  { s with isAborted := true, isLoading := false, isMerging := false,
           regeneratingId := none }

/-- Clicking a card's regenerate button: `handleRegenerate` lines 266-275
up to its `await generateTTS` — note line 267's guard and line 271's
`isAbortedRef.current = false`. -/
def stepClickRegenerate (s : MState) (item : StoredItem) : MState :=
  if s.isLoading || s.isMerging || s.regeneratingId.isSome || s.regen.isSome then s
  else
    { s with regeneratingId := some item.id, error := none, isAborted := false,
             regen := some ⟨item, RPhase.ttsWait⟩ }

/-- The pending session's `generateTTS` resolves (src/App.tsx lines
203-243): check the abort flag (`break` when set: merge skipped, `finally`
runs), else persist the labelled item, prepend it to history, and move to
the inter-chunk delay, the merge, or the `finally`. -/
def stepGenTTSOk (s : MState) (dur id ts : Nat) : MState :=
  match s.gen with
  | some g =>
      if g.phase = GPhase.ttsWait then
        if s.isAborted then
          { s with gen := none, isLoading := false, isMerging := false }
        else
          let c := g.chunks.getD g.i []
          let item : StoredItem := ⟨id, itemTextFor g.total g.i c, g.voice, ts, dur⟩
          let s1 := { s with store := saveItem s.store item,
                             history := item :: s.history }
          let g1 := { g with sessionItems := g.sessionItems ++ [item] }
          if g.i + 1 < g.total then
            { s1 with gen := some { g1 with phase := GPhase.delayWait } }
          else if !s.isAborted && decide (1 < g.total) then
            { s1 with isMerging := true,
                      gen := some { g1 with phase := GPhase.mergeWait } }
          else
            { s1 with gen := none, isLoading := false, isMerging := false }
      else s
  | none => s

/-- The pending session's `generateTTS` throws (src/App.tsx lines
256-263): the `catch` sets the error unless the abort flag is set, then
`finally`. -/
def stepGenTTSFail (s : MState) : MState :=
  match s.gen with
  | some g =>
      if g.phase = GPhase.ttsWait then
        if s.isAborted then
          { s with gen := none, isLoading := false, isMerging := false }
        else
          { s with gen := none, isLoading := false, isMerging := false,
                   error := some errServiceMsg }
      else s
  | none => s

/-- The 800 ms inter-chunk delay fires (src/App.tsx line 242, then the
loop's next abort check line 195 and `generateTTS` call line 201). -/
def stepGenDelayFire (s : MState) : MState :=
  match s.gen with
  | some g =>
      if g.phase = GPhase.delayWait then
        if s.isAborted then
          { s with gen := none, isLoading := false, isMerging := false }
        else
          { s with gen := some { g with i := g.i + 1, phase := GPhase.ttsWait } }
      else s
  | none => s

/-- The session's `performMerge` resolves (src/App.tsx lines 251-254 and
the `finally`). -/
def stepGenMergeDone (s : MState) : MState :=
  match s.gen with
  | some g =>
      if g.phase = GPhase.mergeWait then
        { s with mergedIds := some (mergeArtifact g.sessionItems),
                 lastBatchCount := g.total,
                 lastBatchIds := g.sessionItems.map (fun it => it.id),
                 gen := none, isLoading := false, isMerging := false }
      else s
  | none => s

/-- The pending regeneration's `generateTTS` resolves (src/App.tsx lines
277-318): re-persist under the same id, replace the history entry, start
the batch re-merge when the item is a tracked batch member, and schedule
the 600 ms timeout that clears `regeneratingId`. -/
def stepRegenTTSOk (s : MState) (dur : Nat) : MState :=
  match s.regen with
  | some r =>
      if r.phase = RPhase.ttsWait then
        let upd : StoredItem := { r.item with duration := dur }
        let s1 := { s with store := saveItem s.store upd,
                           history := s.history.map
                             (fun h : StoredItem =>
                               if h.id == r.item.id then upd else h) }
        if s.lastBatchIds.contains r.item.id then
          { s1 with isMerging := true,
                    regen := some { r with phase := RPhase.mergeWait } }
        else
          { s1 with regen := some { r with phase := RPhase.timeoutWait } }
      else s
  | none => s

/-- The regeneration's `generateTTS` throws (src/App.tsx lines 319-322). -/
def stepRegenTTSFail (s : MState) : MState :=
  match s.regen with
  | some r =>
      if r.phase = RPhase.ttsWait then
        { s with error := some errRegenMsg, regeneratingId := none, regen := none }
      else s
  | none => s

/-- The regeneration's batch re-merge resolves (src/App.tsx lines
308-315). -/
def stepRegenMergeDone (s : MState) : MState :=
  match s.regen with
  | some r =>
      if r.phase = RPhase.mergeWait then
        { s with mergedIds := some (mergeArtifact
              (s.history.filter (fun h => s.lastBatchIds.contains h.id))),
                 isMerging := false,
                 regen := some { r with phase := RPhase.timeoutWait } }
      else s
  | none => s

/-- The 600 ms timeout clearing `regeneratingId` fires (src/App.tsx line
318). -/
def stepRegenTimeout (s : MState) : MState :=
  match s.regen with
  | some r =>
      if r.phase = RPhase.timeoutWait then
        { s with regeneratingId := none, regen := none }
      else s
  | none => s

/-- An observable event: a user click, a network call settling, or a
timer firing. -/
inductive MEvent where
  | clickGenerate
  | clickStop
  | clickRegenerate (item : StoredItem)
  | genTTSOk (dur id ts : Nat)
  | genTTSFail
  | genDelayFire
  | genMergeDone
  | regenTTSOk (dur : Nat)
  | regenTTSFail
  | regenMergeDone
  | regenTimeout

/-- One machine step. -/
def step (s : MState) : MEvent → MState
  | MEvent.clickGenerate => stepClickGenerate s
  | MEvent.clickStop => stepClickStop s
  | MEvent.clickRegenerate item => stepClickRegenerate s item
  | MEvent.genTTSOk dur id ts => stepGenTTSOk s dur id ts
  | MEvent.genTTSFail => stepGenTTSFail s
  | MEvent.genDelayFire => stepGenDelayFire s
  | MEvent.genMergeDone => stepGenMergeDone s
  | MEvent.regenTTSOk dur => stepRegenTTSOk s dur
  | MEvent.regenTTSFail => stepRegenTTSFail s
  | MEvent.regenMergeDone => stepRegenMergeDone s
  | MEvent.regenTimeout => stepRegenTimeout s

/-- Run a sequence of events. -/
def runEvents (s : MState) (es : List MEvent) : MState := es.foldl step s

/-- A pre-existing history item for the violating trace. -/
def raceItem : StoredItem := ⟨1, "xin chào".toList, VoiceName.charon, 0, 1⟩

/-- Initial state of the violating trace: one old history item, a short
pending input. -/
def raceInit : MState :=
  ⟨"hello".toList, VoiceName.kore, false, false, none, false,
   [raceItem], [raceItem], none, none, [], 0, none, none⟩

/-- The violating trace: start a session; stop it while its speech call
is in flight; regenerate an old item (allowed — `handleStop` cleared
`isLoading`, and `handleRegenerate` resets the shared abort flag); then
the stalled session's speech call resolves. -/
def raceTrace : List MEvent :=
  [MEvent.clickGenerate, MEvent.clickStop, MEvent.clickRegenerate raceItem]

/-! ### Claim theorems -/

/-- C1: for every input text `T` and maximum size `M > 0`, every chunk
returned by `splitTextIntoChunks T M` has length at most `M`, including
the case where no boundary is found in the lookback window and a hard
split at exactly `M` is forced. -/
theorem splitTextIntoChunks_length_le (T : List Char) (M : Nat) (hM : 0 < M) :
    ∀ c ∈ splitTextIntoChunks T M, c.length ≤ M := by
  unfold splitTextIntoChunks
  exact splitGo_length_le M hM (T.length + 1) T (Nat.lt_succ_self _)

theorem splitTextIntoChunks_length_le_witness :
    (0 : Nat) < 4 ∧ ∀ c ∈ splitTextIntoChunks "ab cd. ef".toList 4, c.length ≤ 4 :=
  ⟨by decide, splitTextIntoChunks_length_le "ab cd. ef".toList 4 (by decide)⟩

/-- C2: for every input text `T` and maximum size `M > 0`, the chunks of
`splitTextIntoChunks T M` are, in order, contiguous segments of `T` with
whitespace removed only at the segment boundaries (`ChunksOf`), so the
trimmed concatenation of the chunks is `T` minus only boundary
whitespace. -/
theorem splitTextIntoChunks_chunksOf (T : List Char) (M : Nat) (hM : 0 < M) :
    ChunksOf T (splitTextIntoChunks T M) := by
  unfold splitTextIntoChunks
  exact splitGo_chunksOf M hM (T.length + 1) T (Nat.lt_succ_self _)

theorem splitTextIntoChunks_chunksOf_witness :
    (0 : Nat) < 4 ∧
    ChunksOf " ab cd ".toList (splitTextIntoChunks " ab cd ".toList 4) :=
  ⟨by decide, splitTextIntoChunks_chunksOf " ab cd ".toList 4 (by decide)⟩

/-- C3 counterexample: on the empty input the chunker returns the empty
list — not a non-empty sequence, and not one chunk equal to the input —
refuting the claim at `T = ""`, `M = 5`. -/
theorem splitTextIntoChunks_empty_refutes :
    ¬ (splitTextIntoChunks [] 5 ≠ [] ∧
       (List.length ([] : List Char) ≤ 5 → splitTextIntoChunks [] 5 = [[]])) := by
  decide

/-- C3 amended: for every NON-EMPTY input text `T` and maximum size
`M > 0`, `splitTextIntoChunks T M` is non-empty, and whenever
`T.length ≤ M` it is exactly `[T]` (the empty input returns the empty
chunk list). -/
theorem splitTextIntoChunks_nonempty (T : List Char) (M : Nat) (_hM : 0 < M)
    (hT : T ≠ []) :
    splitTextIntoChunks T M ≠ [] ∧
    (T.length ≤ M → splitTextIntoChunks T M = [T]) := by
  unfold splitTextIntoChunks
  rw [splitGo_succ]
  have h0 : ¬ T.length = 0 := fun h => hT (List.length_eq_zero.mp h)
  rw [if_neg h0]
  by_cases hle : T.length ≤ M
  · rw [if_pos hle]
    exact ⟨by simp, fun _ => rfl⟩
  · rw [if_neg hle]
    exact ⟨by simp, fun h => absurd h hle⟩

theorem splitTextIntoChunks_nonempty_witness :
    (0 : Nat) < 5 ∧ "ab".toList ≠ [] ∧
    (splitTextIntoChunks "ab".toList 5 ≠ [] ∧
      ("ab".toList.length ≤ 5 → splitTextIntoChunks "ab".toList 5 = ["ab".toList])) :=
  ⟨by decide, by decide, splitTextIntoChunks_nonempty "ab".toList 5 (by decide) (by decide)⟩

/-- C4: empty (or whitespace-only) or over-20000-character input is
rejected before anything happens: the final state is the old state with
only the validation error set, no text is sent to the Speech Generator
Client, and no session item is created. -/
theorem handleGenerate_rejects_invalid (s : AppState) (env : GenEnv)
    (h : (jsTrim s.inputText).isEmpty = true ∨ MAX_CHARS < s.inputText.length) :
    handleGenerate s env = { s with error := some (
        if (jsTrim s.inputText).isEmpty then errEmptyMsg else errLimitMsg) } ∧
    (runGenerate s env).2.requests = [] ∧
    (runGenerate s env).2.sessionItems = [] := by
  have hmain : runGenerate s env =
      ({ s with error := some (if (jsTrim s.inputText).isEmpty then errEmptyMsg
          else errLimitMsg) },
       ⟨s.store, s.history, [], s.error, [], 0, false⟩) := by
    by_cases he : (jsTrim s.inputText).isEmpty = true
    · unfold runGenerate
      rw [if_pos he, if_pos he]
    · have hlen : MAX_CHARS < s.inputText.length := h.resolve_left he
      unfold runGenerate
      rw [if_neg he, if_pos hlen, if_neg he]
  refine ⟨?_, ?_, ?_⟩
  · show (runGenerate s env).1 = _
    rw [hmain]
  · rw [hmain]
  · rw [hmain]

/-- Concrete state for the C4 witness: whitespace-only input over a
non-trivial session state. -/
def c4State : AppState :=
  ⟨"   ".toList, VoiceName.kore,
   [⟨5, "x".toList, VoiceName.kore, 0, 1⟩], [⟨5, "x".toList, VoiceName.kore, 0, 1⟩],
   none, some [5], [5], 1⟩

/-- Environment for the C4 witness. -/
def c4Env : GenEnv := ⟨fun _ => TTSOutcome.ok 1, fun _ => 9, fun _ => 0, fun _ => false⟩

theorem handleGenerate_rejects_invalid_witness :
    ((jsTrim c4State.inputText).isEmpty = true ∨
      MAX_CHARS < c4State.inputText.length) ∧
    (handleGenerate c4State c4Env = { c4State with error := some (
        if (jsTrim c4State.inputText).isEmpty then errEmptyMsg else errLimitMsg) } ∧
     (runGenerate c4State c4Env).2.requests = [] ∧
     (runGenerate c4State c4Env).2.sessionItems = []) :=
  ⟨Or.inl (by decide), handleGenerate_rejects_invalid c4State c4Env (Or.inl (by decide))⟩

/-- C5: on a validated session whose abort flag is set by the time the
merge check reads it (cancellation), every item the session persisted is
in the final store and history, each persisted item grew the store by
exactly one entry (fresh ids), and no merge is attempted: the merged
artifact is cleared and the tracked batch is untouched. -/
theorem cancelled_session_persists_no_merge (s : AppState) (env : GenEnv)
    (he : ¬ (jsTrim s.inputText).isEmpty = true)
    (hlen : ¬ MAX_CHARS < s.inputText.length)
    (hpair : ∀ a b : Nat, a ≠ b → env.newId a ≠ env.newId b)
    (hfresh : ∀ i, env.newId i ∉ s.store.map (fun it => it.id))
    (habort : env.abort (sessionLoop s env).k = true) :
    (∀ it ∈ (sessionLoop s env).sessionItems,
        it ∈ (runGenerate s env).1.store ∧ it ∈ (runGenerate s env).1.history) ∧
    (runGenerate s env).1.store.length =
      s.store.length + (sessionLoop s env).sessionItems.length ∧
    (runGenerate s env).1.mergedIds = none ∧
    (runGenerate s env).1.lastBatchIds = s.lastBatchIds ∧
    (runGenerate s env).1.lastBatchCount = s.lastBatchCount := by
  obtain ⟨-, hhist, hstore⟩ := runGenerate_proj s env he hlen
  obtain ⟨hm1, hm2, hm3⟩ := runGenerate_cancelled s env he hlen habort
  obtain ⟨hmem, hlenEq⟩ := genLoop_persist_inv env s.selectedVoice
    (splitTextIntoChunks s.inputText CHUNK_SIZE).length
    (splitTextIntoChunks s.inputText CHUNK_SIZE) 0
    ⟨s.store, s.history, [], none, [], 0, false⟩
    (fun j _ => hfresh j) hpair
    (by intro it hit; exact absurd hit (List.not_mem_nil it))
  refine ⟨?_, ?_, hm1, hm2, hm3⟩
  · intro it hit
    rw [hstore, hhist]
    exact hmem it hit
  · rw [hstore]
    unfold sessionLoop
    simp only [List.length_nil] at hlenEq
    omega

/-- Concrete state for the C5 witness. -/
def c5State : AppState := ⟨"hello".toList, VoiceName.kore, [], [], none, none, [], 0⟩

/-- Environment for the C5 witness: the user has already cancelled, so
every abort read returns `true`. -/
def c5Env : GenEnv := ⟨fun _ => TTSOutcome.ok 1, fun i => i, fun _ => 0, fun _ => true⟩

theorem cancelled_session_persists_no_merge_witness :
    (¬ (jsTrim c5State.inputText).isEmpty = true) ∧
    (¬ MAX_CHARS < c5State.inputText.length) ∧
    c5Env.abort (sessionLoop c5State c5Env).k = true ∧
    ((∀ it ∈ (sessionLoop c5State c5Env).sessionItems,
        it ∈ (runGenerate c5State c5Env).1.store ∧
        it ∈ (runGenerate c5State c5Env).1.history) ∧
     (runGenerate c5State c5Env).1.store.length =
        c5State.store.length + (sessionLoop c5State c5Env).sessionItems.length ∧
     (runGenerate c5State c5Env).1.mergedIds = none ∧
     (runGenerate c5State c5Env).1.lastBatchIds = c5State.lastBatchIds ∧
     (runGenerate c5State c5Env).1.lastBatchCount = c5State.lastBatchCount) :=
  ⟨by decide, by decide, rfl,
   cancelled_session_persists_no_merge c5State c5Env (by decide) (by decide)
     (fun a b h => h) (fun i => List.not_mem_nil _) rfl⟩

/-- Concrete state for claim C6: a two-member tracked batch. -/
def c6State : AppState :=
  ⟨[], VoiceName.charon,
   [⟨1, "a".toList, VoiceName.charon, 0, 1⟩, ⟨2, "b".toList, VoiceName.charon, 1, 1⟩],
   [⟨1, "a".toList, VoiceName.charon, 0, 1⟩, ⟨2, "b".toList, VoiceName.charon, 1, 1⟩],
   none, some [1, 2], [1, 2], 2⟩

/-- C6 counterexample: deleting batch member 1 leaves `lastBatchIds =
[2]` — the batch membership is filtered, not cleared as the claim
states. -/
theorem handleDelete_batch_not_cleared :
    (handleDelete c6State 1).lastBatchIds = [2] ∧
    ¬ (handleDelete c6State 1).lastBatchIds = [] := by
  decide

/-- C6 amended: deleting an id that belongs to the tracked batch removes
exactly that item from the History Store and the in-memory history and
clears the merged artifact, but only removes the deleted id from the
batch membership — the remaining members stay tracked. -/
theorem handleDelete_in_batch (s : AppState) (id : Nat) (h : id ∈ s.lastBatchIds) :
    (∀ it ∈ (handleDelete s id).store, it.id ≠ id) ∧
    (∀ it ∈ (handleDelete s id).history, it.id ≠ id) ∧
    (∀ it ∈ s.store, it.id ≠ id → it ∈ (handleDelete s id).store) ∧
    (∀ it ∈ s.history, it.id ≠ id → it ∈ (handleDelete s id).history) ∧
    (handleDelete s id).mergedIds = none ∧
    (handleDelete s id).lastBatchIds = s.lastBatchIds.filter (fun b => b != id) := by
  have hb : (s.lastBatchIds.contains id) = true := by simpa using h
  have hchar : handleDelete s id =
      { s with store := s.store.filter (fun it => it.id != id),
               history := s.history.filter (fun it => it.id != id),
               mergedIds := none,
               lastBatchIds := s.lastBatchIds.filter (fun b => b != id) } := by
    simp only [handleDelete, deleteItem]
    rw [if_pos hb]
  rw [hchar]
  refine ⟨?_, ?_, ?_, ?_, rfl, rfl⟩
  · intro it hit
    have hbe := (List.mem_filter.mp hit).2
    simpa using hbe
  · intro it hit
    have hbe := (List.mem_filter.mp hit).2
    simpa using hbe
  · intro it hit hne
    exact List.mem_filter.mpr ⟨hit, by simpa using hne⟩
  · intro it hit hne
    exact List.mem_filter.mpr ⟨hit, by simpa using hne⟩

theorem handleDelete_in_batch_witness :
    1 ∈ c6State.lastBatchIds ∧
    ((∀ it ∈ (handleDelete c6State 1).store, it.id ≠ 1) ∧
     (∀ it ∈ (handleDelete c6State 1).history, it.id ≠ 1) ∧
     (∀ it ∈ c6State.store, it.id ≠ 1 → it ∈ (handleDelete c6State 1).store) ∧
     (∀ it ∈ c6State.history, it.id ≠ 1 → it ∈ (handleDelete c6State 1).history) ∧
     (handleDelete c6State 1).mergedIds = none ∧
     (handleDelete c6State 1).lastBatchIds =
       c6State.lastBatchIds.filter (fun b => b != 1)) :=
  ⟨by decide, handleDelete_in_batch c6State 1 (by decide)⟩

/-- C7 (code bug): after start-session, stop, regenerate, the cancelled
session's pending speech call and the regeneration are BOTH in flight —
`handleStop` cleared `isLoading`, so `handleRegenerate`'s guard passed,
and line 271 reset the shared abort flag; when the stalled session's call
then resolves, the session persists its chunk (history grows) while the
regeneration is still in flight.  This refutes the mutual-exclusion
claim on a reachable trace. -/
theorem regen_during_stalled_session_race :
    ((runEvents raceInit raceTrace).gen.isSome = true ∧
     (runEvents raceInit raceTrace).regen.isSome = true ∧
     (runEvents raceInit raceTrace).regeneratingId = some 1 ∧
     (runEvents raceInit raceTrace).isAborted = false) ∧
    ((step (runEvents raceInit raceTrace) (MEvent.genTTSOk 5 7 100)).history.length =
        raceInit.history.length + 1 ∧
     (step (runEvents raceInit raceTrace) (MEvent.genTTSOk 5 7 100)).regen.isSome = true ∧
     (step (runEvents raceInit raceTrace) (MEvent.genTTSOk 5 7 100)).regeneratingId =
        some 1) := by
  decide

/-- C8: in a multi-chunk session the stored item text is the part label
followed by the chunk, stripping the label recovers the chunk exactly,
and a later regeneration of such an item re-sends exactly the chunk to
the Speech Generator Client. -/
theorem partLabel_roundtrip (c : List Char) (v : VoiceName) (i total : Nat)
    (htotal : 1 < total) (s : AppState) (id ts dur : Nat) (outcome : TTSOutcome) :
    itemTextFor total i c = partLabel (i + 1) total ++ c ∧
    stripPartLabel (itemTextFor total i c) = c ∧
    (handleRegenerate s ⟨id, itemTextFor total i c, v, ts, dur⟩ outcome).2 =
      [(c, v)] := by
  have h1 : itemTextFor total i c = partLabel (i + 1) total ++ c := by
    unfold itemTextFor
    rw [if_pos htotal]
  have h2 : stripPartLabel (itemTextFor total i c) = c := by
    rw [h1]
    exact stripPartLabel_label _ _ _
  refine ⟨h1, h2, ?_⟩
  cases outcome with
  | fail => simp [handleRegenerate, h2]
  | ok dur0 =>
      simp only [handleRegenerate]
      split
      · simp [h2]
      · simp [h2]

/-- Concrete state for the C8 witness. -/
def c8State : AppState := ⟨[], VoiceName.puck, [], [], none, none, [], 0⟩

theorem partLabel_roundtrip_witness :
    1 < 3 ∧
    (itemTextFor 3 0 "xin".toList = partLabel (0 + 1) 3 ++ "xin".toList ∧
     stripPartLabel (itemTextFor 3 0 "xin".toList) = "xin".toList ∧
     (handleRegenerate c8State ⟨4, itemTextFor 3 0 "xin".toList, VoiceName.puck, 7, 2⟩
        (TTSOutcome.ok 2)).2 = [("xin".toList, VoiceName.puck)]) :=
  ⟨by decide, partLabel_roundtrip "xin".toList VoiceName.puck 0 3 (by decide)
    c8State 4 7 2 (TTSOutcome.ok 2)⟩

/-- Environment whose id source always returns 7. -/
def dupEnv : GenEnv := ⟨fun _ => TTSOutcome.ok 1, fun _ => 7, fun _ => 0, fun _ => false⟩

/-- Empty initial state for claim C9. -/
def emptyState : AppState := ⟨[], VoiceName.charon, [], [], none, none, [], 0⟩

/-- C9 counterexample: the code never checks id freshness — two sessions
whose id source (`Math.random`) happens to return the same id leave the
history with two items of id 7, refuting pairwise distinctness on a
reachable state. -/
theorem duplicate_id_in_history :
    ((applyOps emptyState [Op.genOp "xin chao".toList dupEnv,
        Op.genOp "xin chao".toList dupEnv]).history.map (fun it => it.id)) = [7, 7] ∧
    ¬ ((applyOps emptyState [Op.genOp "xin chao".toList dupEnv,
        Op.genOp "xin chao".toList dupEnv]).history.map (fun it => it.id)).Nodup := by
  decide

/-- C9 amended: PROVIDED the id source never repeats an id and never
returns an id already in the history (which the code assumes of
`Math.random` but does not check), every reachable state of the coarse
model keeps the history ids pairwise distinct. -/
theorem history_ids_nodup (ops : List Op) (s : AppState)
    (hnd : (s.history.map (fun it => it.id)).Nodup)
    (hfresh : FreshTrace s ops) :
    ((applyOps s ops).history.map (fun it => it.id)).Nodup := by
  induction ops generalizing s with
  | nil => exact hnd
  | cons op rest ih =>
      exact ih (applyOp s op) (applyOp_nodup s op hnd hfresh.1) hfresh.2

/-- Environment with a fresh id source for the C9 witness. -/
def freshEnv : GenEnv :=
  ⟨fun _ => TTSOutcome.ok 1, fun i => i + 100, fun _ => 0, fun _ => false⟩

theorem history_ids_nodup_witness :
    ((emptyState.history.map (fun it => it.id)).Nodup) ∧
    FreshTrace emptyState [Op.genOp "hi".toList freshEnv] ∧
    ((applyOps emptyState [Op.genOp "hi".toList freshEnv]).history.map
      (fun it => it.id)).Nodup :=
  ⟨by decide,
   ⟨⟨by intro i j hij he; simp only [freshEnv] at he; omega,
      fun i => List.not_mem_nil _⟩, trivial⟩,
   history_ids_nodup [Op.genOp "hi".toList freshEnv] emptyState (by decide)
     ⟨⟨by intro i j hij he; simp only [freshEnv] at he; omega,
       fun i => List.not_mem_nil _⟩, trivial⟩⟩

/-- C10: for every `M ≥ 1` the loop terminates on every input: each
computed split index lies in `[1, M]`, so the remaining text strictly
shrinks, and any fuel beyond the input length yields the same chunk list
as `splitTextIntoChunks` itself. -/
theorem splitTextIntoChunks_terminates (M : Nat) (hM : 1 ≤ M) :
    (∀ t : List Char, M < t.length →
        1 ≤ computeSplitIndex M t ∧ computeSplitIndex M t ≤ M ∧
        (jsTrim (t.drop (computeSplitIndex M t))).length < t.length) ∧
    ∀ (T : List Char) (fuel : Nat), T.length < fuel →
        splitGo M fuel T = splitTextIntoChunks T M := by
  refine ⟨?_, ?_⟩
  · intro t ht
    obtain ⟨h1, h2⟩ := computeSplitIndex_bounds M hM t
    have h3 := remaining_shrinks M hM t ht
    exact ⟨h1, h2, by omega⟩
  · intro T fuel hfuel
    unfold splitTextIntoChunks
    exact splitGo_fuel_irrel M hM fuel (T.length + 1) T hfuel (Nat.lt_succ_self _)

theorem splitTextIntoChunks_terminates_witness :
    (1 : Nat) ≤ 2 ∧
    (1 ≤ computeSplitIndex 2 "abcde".toList ∧
      computeSplitIndex 2 "abcde".toList ≤ 2 ∧
      (jsTrim ("abcde".toList.drop (computeSplitIndex 2 "abcde".toList))).length <
        "abcde".toList.length) ∧
    splitGo 2 9 "abcde".toList = splitTextIntoChunks "abcde".toList 2 :=
  ⟨by decide,
   (splitTextIntoChunks_terminates 2 (by decide)).1 "abcde".toList (by decide),
   (splitTextIntoChunks_terminates 2 (by decide)).2 "abcde".toList 9 (by decide)⟩

end Voice
